import Mathlib

/-!
# Verification of the small_gicp KdTree python binding (`src/python/kdtree.cpp`)

The binding file packages calls into the small_gicp KdTree library
(`small_gicp/ann/kdtree_omp.hpp`), whose sources are not part of this
repository snapshot; the library's build and search algorithms are therefore
modelled from the specification (recursive median-split construction with
largest-spread axis selection, branch-and-bound nearest-neighbor search,
distance-ordered k-nearest-neighbor search).  The binding-level behaviour —
query-shape validation, sentinel values, padding, the batch loops, and the
hard-coded homogeneous coordinate — is embedded directly from the C++ source.

Real coordinates are embedded as exact rationals.  Values of the C++ `double`
type observable at the binding boundary are embedded as `Dbl`: an exact finite
rational or positive infinity, which lets the development distinguish
`std::numeric_limits<double>::max()` (a finite value) from `+inf`.
-/

namespace SmallGicp

/-- A 3-D point with exact rational coordinates (embedding of `Eigen::Vector3d`).
The binding builds `Eigen::Vector4d(pt.x(), pt.y(), pt.z(), 1.0)` before the
search; the 4th homogeneous coordinate is the constant `1.0` and never enters
a distance computation, so points are modelled with three coordinates. -/
structure Point3 where
  x : ℚ
  y : ℚ
  z : ℚ
deriving DecidableEq, Repr

/-- Coordinate access by axis, the `coordinate(index, dim)` capability of the
point store adapter. -/
def coord (p : Point3) : Fin 3 → ℚ
  | 0 => p.x
  | 1 => p.y
  | 2 => p.z

/-- Squared Euclidean distance between two points. -/
def sqDist (a b : Point3) : ℚ :=
  (a.x - b.x) ^ 2 + (a.y - b.y) ^ 2 + (a.z - b.z) ^ 2

/-- Embedding of the IEEE-754 `double` values observable at the binding
boundary: an exact finite value, or positive infinity. -/
inductive Dbl where
  | val (q : ℚ)
  | posInf
deriving DecidableEq, Repr

/-- The exact value of `std::numeric_limits<double>::max()`,
`(2 - 2 ^ (-52)) * 2 ^ 1023 = 2 ^ 1024 - 2 ^ 971`, written as an integer
literal (see `maxDoubleQ_eq`). -/
def maxDoubleQ : ℚ :=
  179769313486231570814527423731704356798070567525844996598917476803157260780028538760589558632766878171540458953514382464234321326889464182768467546703537516986049910576551282076245490090389328944075868508455133942304583236903222948165808559332123348274797826204144723168738177180919299881250404026184124858368

/-- `std::numeric_limits<double>::max()` as a `Dbl`: a finite value, distinct
from `Dbl.posInf`. -/
def maxDouble : Dbl := .val maxDoubleQ

/-- Order on embedded doubles: finite values compare as rationals and
`posInf` is the top element. -/
def Dbl.le : Dbl → Dbl → Prop
  | .val a, .val b => a ≤ b
  | _, .posInf => True
  | .posInf, .val _ => False

instance : DecidableRel Dbl.le := fun a b => by
  cases a <;> cases b <;> simp only [Dbl.le] <;> infer_instance

/-- `(size_t)-1 = 2 ^ 64 - 1`, the sentinel index written by the binding
(`size_t k_index = -1;`, `std::vector<size_t> k_indices(k, -1)`). -/
def SENTINEL_IDX : ℕ := 2 ^ 64 - 1

/-! ## KdTree construction, modelled from the spec (§4.1) -/

/-- Items carried during construction: an original point-store index paired
with the point's coordinates. -/
abbrev Item := ℕ × Point3

/-- Comparison of construction items along one axis. -/
def axLE (ax : Fin 3) (a b : Item) : Prop := coord a.2 ax ≤ coord b.2 ax

instance (ax : Fin 3) : DecidableRel (axLE ax) := fun a b =>
  inferInstanceAs (Decidable (coord a.2 ax ≤ coord b.2 ax))

instance (ax : Fin 3) : IsTotal Item (axLE ax) :=
  ⟨fun a b => le_total (coord a.2 ax) (coord b.2 ax)⟩

instance (ax : Fin 3) : IsTrans Item (axLE ax) :=
  ⟨fun _ _ _ hab hbc => le_trans hab hbc⟩

instance (ax : Fin 3) : IsRefl Item (axLE ax) :=
  ⟨fun a => le_refl (coord a.2 ax)⟩

/-- Largest coordinate value over a list (0 for the empty list, which never
occurs during construction). -/
def listMax : List ℚ → ℚ
  | [] => 0
  | x :: xs => xs.foldl max x

/-- Smallest coordinate value over a list. -/
def listMin : List ℚ → ℚ
  | [] => 0
  | x :: xs => xs.foldl min x

/-- Modelled from the spec: the coordinate spread (max − min) of a sub-range
along one axis, the quantity maximised by the axis-selection rule of the
missing `kdtree_omp.hpp` builder. -/
def spreadOf (ax : Fin 3) (items : List Item) : ℚ :=
  listMax (items.map fun ip => coord ip.2 ax) - listMin (items.map fun ip => coord ip.2 ax)

/-- Modelled from the spec: choose the splitting axis as the dimension with
the largest coordinate spread across the sub-range (ties resolved towards the
lower axis, a consistent choice the spec leaves open). -/
def chooseAxis (items : List Item) : Fin 3 :=
  if spreadOf 1 items ≤ spreadOf 0 items ∧ spreadOf 2 items ≤ spreadOf 0 items then 0
  else if spreadOf 2 items ≤ spreadOf 1 items then 1
  else 2

/-- A node of the partition tree: a leaf stores one point (index and
coordinates); an internal node stores the splitting axis, the split value and
two children. -/
inductive KdNode where
  | leaf (idx : ℕ) (p : Point3)
  | node (ax : Fin 3) (split : ℚ) (l r : KdNode)
deriving DecidableEq, Repr

/-- Order a sub-range by coordinate along one axis (the construction needs
only that the result is sorted along `ax` and is a permutation; a selection
algorithm with the same postcondition yields the same split sets). -/
def sortByAxis (ax : Fin 3) (items : List Item) : List Item :=
  items.insertionSort (axLE ax)

/-- Combine optional subtrees into an optional parent node.  Both children
are present whenever the parent sub-range holds at least two items; the
degenerate branches keep the function total. -/
def mkNode (ax : Fin 3) (split : ℚ) : Option KdNode → Option KdNode → Option KdNode
  | some l, some r => some (.node ax split l r)
  | some l, none => some l
  | none, some r => some r
  | none, none => none

/-- The sub-range ordered along its chosen axis. -/
def sortedOf (items : List Item) : List Item := sortByAxis (chooseAxis items) items

/-- The median position of a sub-range. -/
def midOf (items : List Item) : ℕ := items.length / 2

/-- The split value of a sub-range: the median coordinate along the chosen
axis. -/
def splitOf (items : List Item) : ℚ :=
  coord ((sortedOf items).getD (midOf items) (0, ⟨0, 0, 0⟩)).2 (chooseAxis items)

/-- Modelled from the spec: the recursive median-split construction of the
missing `kdtree_omp.hpp` builder.  A sub-range of ≤ 1 item becomes a leaf;
otherwise the sub-range is ordered along the largest-spread axis, split at
the median position `n / 2`, the median coordinate becomes the split value,
and construction recurses into the two halves.  Recursion is paced by a fuel
counter so that the definition is structural; any fuel ≥ the sub-range size
computes the construction (`buildFuel_congr`), and `buildGo` supplies it. -/
def buildFuel : ℕ → List Item → Option KdNode
  | _, [] => none
  | _, [ip] => some (.leaf ip.1 ip.2)
  | 0, _ :: _ :: _ => none
  | fuel + 1, a :: b :: t =>
    mkNode (chooseAxis (a :: b :: t)) (splitOf (a :: b :: t))
      (buildFuel fuel ((sortedOf (a :: b :: t)).take (midOf (a :: b :: t))))
      (buildFuel fuel ((sortedOf (a :: b :: t)).drop (midOf (a :: b :: t))))

/-- The median-split construction of a sub-range. -/
def buildGo (items : List Item) : Option KdNode := buildFuel items.length items

/-- Build the tree over a point cloud: construction items are the enumerated
points `(0, p₀), (1, p₁), …`. -/
def build (pts : List Point3) : Option KdNode := buildGo pts.enum

/-! ## Nearest-neighbor search, modelled from the spec (§4.2) -/

/-- `distLT d best` is the bound test `d < best_sq_dist`, where an absent
best (`best_sq_dist = +infinity` in the spec's algorithm) admits every
candidate. -/
def distLT (d : ℚ) : Option (ℕ × ℚ) → Bool
  | none => true
  | some b => decide (d < b.2)

/-- The current search bound as an element of `WithTop ℚ` (absent best = ⊤). -/
def bnd : Option (ℕ × ℚ) → WithTop ℚ
  | none => ⊤
  | some b => (b.2 : WithTop ℚ)

/-- Replace the current best by a candidate when strictly closer. -/
def updateBest (cand : ℕ × ℚ) (best : Option (ℕ × ℚ)) : Option (ℕ × ℚ) :=
  if distLT cand.2 best then some cand else best

/-- Modelled from the spec: the branch-and-bound depth-first traversal of the
missing `kdtree_omp.hpp` nearest-neighbor search.  At a leaf the stored point
is tested against the current best; at an internal node the near child (the
side of the split plane holding the query) is descended first, and the far
child only when the squared distance to the splitting hyperplane,
`(q[axis] - split)^2`, is below the current best squared distance. -/
def nnGo (q : Point3) : KdNode → Option (ℕ × ℚ) → Option (ℕ × ℚ)
  | .leaf i p, best => updateBest (i, sqDist q p) best
  | .node ax s l r, best =>
    if coord q ax < s then
      let b1 := nnGo q l best
      if distLT ((coord q ax - s) ^ 2) b1 then nnGo q r b1 else b1
    else
      let b1 := nnGo q r best
      if distLT ((coord q ax - s) ^ 2) b1 then nnGo q l b1 else b1

/-- The library-level nearest-neighbor search over a point cloud: build the
tree, then search from the root with an infinite initial bound.  Returns
`none` exactly when no point exists. -/
def nnSearch (pts : List Point3) (q : Point3) : Option (ℕ × ℚ) :=
  match build pts with
  | none => none
  | some t => nnGo q t none

/-- One step of the brute-force scan: offer one enumerated point to the
current best. -/
def scanStep (q : Point3) (best : Option (ℕ × ℚ)) (ip : Item) : Option (ℕ × ℚ) :=
  updateBest (ip.1, sqDist q ip.2) best

/-- Brute-force linear scan: fold `scanStep` over all enumerated points. -/
def bruteNN (q : Point3) (pts : List Point3) : Option (ℕ × ℚ) :=
  pts.enum.foldl (scanStep q) none

/-! ## k-nearest-neighbor search, modelled from the spec (§4.3) -/

/-- Comparison of `(index, squared distance)` candidates by distance. -/
def distLE (a b : ℕ × ℚ) : Prop := a.2 ≤ b.2

instance : DecidableRel distLE := fun a b => inferInstanceAs (Decidable (a.2 ≤ b.2))

instance : IsTotal (ℕ × ℚ) distLE := ⟨fun a b => le_total a.2 b.2⟩

instance : IsTrans (ℕ × ℚ) distLE := ⟨fun _ _ _ hab hbc => le_trans hab hbc⟩

/-- All `(index, squared distance)` candidates for a query, ordered from
nearest to farthest (ties resolved by the stable order of the point store,
a consistent choice the spec leaves open). -/
def knnAll (pts : List Point3) (q : Point3) : List (ℕ × ℚ) :=
  (pts.enum.map fun ip => (ip.1, sqDist q ip.2)).insertionSort distLE

/-- Modelled from the spec: the missing `kdtree_omp.hpp` k-nearest-neighbor
search.  It fills `min k N` result slots with the `k` closest points, ordered
from nearest to farthest, and reports how many slots it filled. -/
def knnLib (pts : List Point3) (q : Point3) (k : ℕ) : List (ℕ × ℚ) :=
  (knnAll pts q).take k

/-! ## The binding layer, embedded from `src/python/kdtree.cpp` -/

/-- The tuple returned by `nearest_neighbor_search`: the `found` count, the
neighbor index (`size_t`), and the squared distance (`double`). -/
structure NNRes where
  found : ℕ
  index : ℕ
  sqdist : Dbl
deriving DecidableEq, Repr

/-- `KdTree.nearest_neighbor_search` (kdtree.cpp:35-42): `k_index` is
initialised to `(size_t)-1` and `k_sq_dist` to
`std::numeric_limits<double>::max()`; the library search overwrites them
when it finds a neighbor, and the initial sentinels are returned otherwise,
together with the `found` count. -/
def nearest_neighbor_search (pts : List Point3) (q : Point3) : NNRes :=
  match nnSearch pts q with
  | none => ⟨0, SENTINEL_IDX, maxDouble⟩
  | some (i, d) => ⟨1, i, .val d⟩

/-- `KdTree.knn_search` (kdtree.cpp:62-69): vectors of length `k` are
initialised to the sentinels `(size_t)-1` and
`std::numeric_limits<double>::max()`; the library fills the first `found`
slots nearest-first, and the remaining slots keep the sentinels. -/
def knn_search (pts : List Point3) (q : Point3) (k : ℕ) : List ℕ × List Dbl :=
  let res := knnLib pts q k
  (res.map Prod.fst ++ List.replicate (k - res.length) SENTINEL_IDX,
   res.map (fun r => Dbl.val r.2) ++ List.replicate (k - res.length) maxDouble)

/-- An `Eigen::MatrixXd` query matrix: a list of rows together with the
column count. -/
structure DMat where
  rows : List (List ℚ)
  cols : ℕ

/-- Well-formedness of a query matrix: every row has `cols` entries. -/
def DMat.WF (m : DMat) : Prop := ∀ r ∈ m.rows, r.length = m.cols

/-- The query point a batch search builds from row `i`:
`Eigen::Vector4d(pts(i,0), pts(i,1), pts(i,2), 1.0)` reads only the first
three columns, and the homogeneous coordinate is the constant `1.0`. -/
def rowPoint (row : List ℚ) : Point3 :=
  ⟨row.getD 0 0, row.getD 1 0, row.getD 2 0⟩

/-- The slots one iteration of the `batch_nearest_neighbor_search` loop body
leaves for its row: the values the library search wrote when it found a
neighbor, and the sentinels `(size_t)-1`,
`std::numeric_limits<double>::max()` otherwise. -/
def nnCell (pts : List Point3) (p : Point3) : ℕ × Dbl :=
  match nnSearch pts p with
  | none => (SENTINEL_IDX, maxDouble)
  | some (i, d) => (i, Dbl.val d)

/-- `KdTree.batch_nearest_neighbor_search` (kdtree.cpp:90-110): rejects any
column count other than 3 or 4 with `std::invalid_argument` before any
search; otherwise runs the single search per row (the OpenMP loop writes
each row's slots independently), resetting a not-found row's slots to the
sentinels `(size_t)-1` and `std::numeric_limits<double>::max()`. -/
def batch_nearest_neighbor_search (pts : List Point3) (m : DMat) (numThreads : ℕ) :
    Except String (List ℕ × List Dbl) :=
  if m.cols ≠ 3 ∧ m.cols ≠ 4 then
    .error "pts must have shape (n, 3) or (n, 4)"
  else
    let results := m.rows.map fun row => nnCell pts (rowPoint row)
    .ok (results.map Prod.fst, results.map Prod.snd)

/-- `KdTree.batch_knn_search` (kdtree.cpp:131-153): the same column-count
validation; otherwise per row the `k`-slot vectors are initialised to the
sentinels, the library fills the first `found` slots, and slots from `found`
on are explicitly reset to `(size_t)-1` and
`std::numeric_limits<double>::max()`. -/
def batch_knn_search (pts : List Point3) (m : DMat) (k : ℕ) (numThreads : ℕ) :
    Except String (List (List ℕ) × List (List Dbl)) :=
  if m.cols ≠ 3 ∧ m.cols ≠ 4 then
    .error "pts must have shape (n, 3) or (n, 4)"
  else
    let results := m.rows.map fun row => knn_search pts (rowPoint row) k
    .ok (results.map Prod.fst, results.map Prod.snd)

/-- Modelled from the spec: the `KdTreeBuilderOMP` parallel construction of
the missing `kdtree_omp.hpp`.  Recursion branches are dispatched to worker
tasks while the thread budget exceeds one, halving the budget per level;
below that the sequential construction runs.  The split decisions are those
of the sequential algorithm on each disjoint sub-range. -/
def buildOMPGo (budget : ℕ) (items : List Item) : Option KdNode :=
  if budget ≤ 1 then buildGo items
  else
    match items with
    | [] => none
    | [ip] => some (.leaf ip.1 ip.2)
    | a :: b :: t =>
      mkNode (chooseAxis (a :: b :: t)) (splitOf (a :: b :: t))
        (buildOMPGo (budget / 2) ((sortedOf (a :: b :: t)).take (midOf (a :: b :: t))))
        (buildOMPGo (budget / 2) ((sortedOf (a :: b :: t)).drop (midOf (a :: b :: t))))
termination_by budget
decreasing_by all_goals omega

/-- `KdTree.__init__` (kdtree.cpp:19-23): construct the tree with
`KdTreeBuilderOMP(num_threads)`. -/
def KdTree_init (pts : List Point3) (numThreads : ℕ) : Option KdNode :=
  buildOMPGo numThreads pts.enum

/-- The spec's test scenario point set `{(0,0,0), (10,0,0), (0,10,0)}`. -/
def scenarioPts : List Point3 := [⟨0, 0, 0⟩, ⟨10, 0, 0⟩, ⟨0, 10, 0⟩]

/-- The spec's test scenario query point `(1,0,0)`. -/
def scenarioQ : Point3 := ⟨1, 0, 0⟩

/-! ## Tree contents -/

/-- The construction items stored in a tree, in left-to-right order. -/
def elems : KdNode → List Item
  | .leaf i p => [(i, p)]
  | .node _ _ l r => elems l ++ elems r

/-- Tree contents of an optional tree. -/
def elemsO : Option KdNode → List Item
  | none => []
  | some t => elems t

theorem elemsO_mkNode (ax : Fin 3) (s : ℚ) (o₁ o₂ : Option KdNode) :
    elemsO (mkNode ax s o₁ o₂) = elemsO o₁ ++ elemsO o₂ := by
  cases o₁ <;> cases o₂ <;> simp [mkNode, elemsO, elems]

theorem sortByAxis_perm (ax : Fin 3) (items : List Item) :
    List.Perm (sortByAxis ax items) items :=
  List.perm_insertionSort _ _

theorem sortByAxis_sorted (ax : Fin 3) (items : List Item) :
    (sortByAxis ax items).Sorted (axLE ax) :=
  List.sorted_insertionSort _ _

theorem length_sortByAxis (ax : Fin 3) (items : List Item) :
    (sortByAxis ax items).length = items.length :=
  (sortByAxis_perm ax items).length_eq

theorem sortedOf_perm (items : List Item) : List.Perm (sortedOf items) items :=
  sortByAxis_perm _ _

theorem sortedOf_sorted (items : List Item) :
    (sortedOf items).Sorted (axLE (chooseAxis items)) :=
  sortByAxis_sorted _ _

theorem length_sortedOf (items : List Item) : (sortedOf items).length = items.length :=
  (sortedOf_perm items).length_eq

/-- Fuel bounds for the two recursive calls of the construction. -/
theorem half_length_le {a b : Item} {t : List Item} {fuel : ℕ}
    (h : (a :: b :: t).length ≤ fuel + 1) :
    ((sortedOf (a :: b :: t)).take (midOf (a :: b :: t))).length ≤ fuel ∧
    ((sortedOf (a :: b :: t)).drop (midOf (a :: b :: t))).length ≤ fuel := by
  rw [List.length_take, List.length_drop, length_sortedOf]
  rw [List.length_cons, List.length_cons] at h ⊢
  simp only [midOf, List.length_cons]
  omega

/-- Fuel irrelevance: any sufficient fuel computes the same construction. -/
theorem buildFuel_congr : ∀ (f₁ : ℕ) (items : List Item) (f₂ : ℕ),
    items.length ≤ f₁ → items.length ≤ f₂ → buildFuel f₁ items = buildFuel f₂ items := by
  intro f₁
  induction f₁ with
  | zero =>
    intro items f₂ h₁ _
    match items with
    | [] => cases f₂ <;> rfl
    | a :: t => simp at h₁
  | succ f ih =>
    intro items f₂ h₁ h₂
    match items with
    | [] => cases f₂ <;> rfl
    | [ip] => cases f₂ <;> rfl
    | a :: b :: t =>
      match f₂ with
      | 0 => simp at h₂
      | g + 1 =>
        obtain ⟨hl₁, hr₁⟩ := half_length_le h₁
        obtain ⟨hl₂, hr₂⟩ := half_length_le h₂
        show mkNode _ _ _ _ = mkNode _ _ _ _
        rw [ih _ g hl₁ hl₂, ih _ g hr₁ hr₂]

theorem buildGo_nil : buildGo [] = none := rfl

theorem buildGo_single (ip : Item) : buildGo [ip] = some (.leaf ip.1 ip.2) := rfl

/-- The unfolding of `buildGo` on a sub-range of at least two items. -/
theorem buildGo_cons (a b : Item) (t : List Item) :
    buildGo (a :: b :: t) =
      mkNode (chooseAxis (a :: b :: t)) (splitOf (a :: b :: t))
        (buildGo ((sortedOf (a :: b :: t)).take (midOf (a :: b :: t))))
        (buildGo ((sortedOf (a :: b :: t)).drop (midOf (a :: b :: t)))) := by
  show buildFuel (t.length + 1 + 1) (a :: b :: t) = _
  obtain ⟨hl, hr⟩ := @half_length_le a b t (t.length + 1) (le_refl _)
  show mkNode _ _ _ _ = mkNode _ _ _ _
  rw [buildGo, buildGo, buildFuel_congr _ _ _ hl (le_refl _),
    buildFuel_congr _ _ _ hr (le_refl _)]

/-- The construction permutes the input items: the built tree stores exactly
the items it was given (spec §8 "Completeness": every original point index
appears in exactly one leaf). -/
theorem buildFuel_perm : ∀ (fuel : ℕ) (l : List Item), l.length ≤ fuel →
    List.Perm (elemsO (buildFuel fuel l)) l := by
  intro fuel
  induction fuel with
  | zero =>
    intro l hl
    match l with
    | [] => simp [buildFuel, elemsO]
    | a :: t => simp at hl
  | succ f ih =>
    intro l hl
    match l with
    | [] => simp [buildFuel, elemsO]
    | [ip] => simp [buildFuel, elemsO, elems]
    | a :: b :: t =>
      obtain ⟨h₁, h₂⟩ := half_length_le hl
      show List.Perm (elemsO (mkNode _ _ _ _)) _
      rw [elemsO_mkNode]
      exact ((ih _ h₁).append (ih _ h₂)).trans
        (by rw [List.take_append_drop]; exact sortedOf_perm _)

theorem buildGo_perm (items : List Item) : List.Perm (elemsO (buildGo items)) items :=
  buildFuel_perm items.length items (le_refl _)

/-- An empty result tree comes only from an empty sub-range. -/
theorem buildGo_eq_none (items : List Item) (h : buildGo items = none) : items = [] := by
  have hp := buildGo_perm items
  rw [h] at hp
  exact hp.symm.eq_nil

/-! ## The split invariant (spec §3) -/

/-- The spec's tree invariant: below an internal node, every point reachable
through `left` has `axis` coordinate ≤ `split_value` and every point
reachable through `right` has `axis` coordinate ≥ `split_value`. -/
def Inv : KdNode → Prop
  | .leaf _ _ => True
  | .node ax s l r =>
    (∀ ip ∈ elems l, coord ip.2 ax ≤ s) ∧ (∀ ip ∈ elems r, s ≤ coord ip.2 ax) ∧
      Inv l ∧ Inv r

theorem getD_eq_get (l : List Item) (d : Item) (n : ℕ) (h : n < l.length) :
    l.getD n d = l.get ⟨n, h⟩ := by
  simp [List.getD_eq_getElem?_getD, List.getElem?_eq_getElem h]

/-- In a list sorted along `ax`, every element of `take mid` is ≤ the element
at position `mid` along `ax`. -/
theorem sorted_take_le (ax : Fin 3) (L : List Item) (hs : L.Sorted (axLE ax)) (mid : ℕ)
    (hmid : mid < L.length) :
    ∀ x ∈ L.take mid, coord x.2 ax ≤ coord (L.get ⟨mid, hmid⟩).2 ax := by
  intro x hx
  have hmem : L.get ⟨mid, hmid⟩ ∈ L.drop mid := by
    rw [← List.getElem_cons_drop L mid hmid]
    exact List.mem_cons_self _ _
  exact hs.rel_of_mem_take_of_mem_drop hx hmem

/-- In a list sorted along `ax`, the element at position `mid` is ≤ every
element of `drop mid` along `ax`. -/
theorem sorted_drop_ge (ax : Fin 3) (L : List Item) (hs : L.Sorted (axLE ax)) (mid : ℕ)
    (hmid : mid < L.length) :
    ∀ y ∈ L.drop mid, coord (L.get ⟨mid, hmid⟩).2 ax ≤ coord y.2 ax := by
  intro y hy
  obtain ⟨j, hj, rfl⟩ := List.getElem_of_mem hy
  rw [List.getElem_drop]
  have hj' : mid + j < L.length := by
    rw [List.length_drop] at hj
    omega
  exact hs.rel_get_of_le (a := ⟨mid, hmid⟩) (b := ⟨mid + j, hj'⟩)
    (by simp only [Fin.mk_le_mk]; omega)

theorem midOf_lt_length {a b : Item} {t : List Item} :
    midOf (a :: b :: t) < (sortedOf (a :: b :: t)).length := by
  rw [length_sortedOf]
  simp only [midOf, List.length_cons]
  omega

theorem midOf_pos {a b : Item} {t : List Item} : 0 < midOf (a :: b :: t) := by
  simp only [midOf, List.length_cons]
  omega

/-- Every tree the construction produces satisfies the split invariant. -/
theorem buildFuel_inv : ∀ (fuel : ℕ) (l : List Item), l.length ≤ fuel →
    ∀ tr : KdNode, buildFuel fuel l = some tr → Inv tr := by
  intro fuel
  induction fuel with
  | zero =>
    intro l hl tr heq
    match l with
    | [] => simp [buildFuel] at heq
    | a :: t => simp at hl
  | succ f ih =>
    intro l hl tr heq
    match l with
    | [] => simp [buildFuel] at heq
    | [ip] =>
      simp only [buildFuel, Option.some.injEq] at heq
      subst heq
      trivial
    | a :: b :: t =>
      obtain ⟨hf₁, hf₂⟩ := half_length_le hl
      have heq' : mkNode (chooseAxis (a :: b :: t)) (splitOf (a :: b :: t))
          (buildFuel f ((sortedOf (a :: b :: t)).take (midOf (a :: b :: t))))
          (buildFuel f ((sortedOf (a :: b :: t)).drop (midOf (a :: b :: t)))) = some tr := heq
      clear heq
      have hmid : midOf (a :: b :: t) < (sortedOf (a :: b :: t)).length := midOf_lt_length
      have hsplit : splitOf (a :: b :: t) =
          coord ((sortedOf (a :: b :: t)).get ⟨midOf (a :: b :: t), hmid⟩).2
            (chooseAxis (a :: b :: t)) := by
        rw [splitOf, getD_eq_get _ _ _ hmid]
      have hleft : ∀ ip ∈ (sortedOf (a :: b :: t)).take (midOf (a :: b :: t)),
          coord ip.2 (chooseAxis (a :: b :: t)) ≤ splitOf (a :: b :: t) := by
        rw [hsplit]
        exact sorted_take_le _ _ (sortedOf_sorted _) _ hmid
      have hright : ∀ ip ∈ (sortedOf (a :: b :: t)).drop (midOf (a :: b :: t)),
          splitOf (a :: b :: t) ≤ coord ip.2 (chooseAxis (a :: b :: t)) := by
        rw [hsplit]
        exact sorted_drop_ge _ _ (sortedOf_sorted _) _ hmid
      revert heq'
      cases hL : buildFuel f ((sortedOf (a :: b :: t)).take (midOf (a :: b :: t))) with
      | none =>
        cases hR : buildFuel f ((sortedOf (a :: b :: t)).drop (midOf (a :: b :: t))) with
        | none => intro heq'; simp [mkNode] at heq'
        | some r =>
          intro heq'
          simp only [mkNode, Option.some.injEq] at heq'
          subst heq'
          exact ih _ hf₂ _ hR
      | some lt =>
        cases hR : buildFuel f ((sortedOf (a :: b :: t)).drop (midOf (a :: b :: t))) with
        | none =>
          intro heq'
          simp only [mkNode, Option.some.injEq] at heq'
          subst heq'
          exact ih _ hf₁ _ hL
        | some r =>
          intro heq'
          simp only [mkNode, Option.some.injEq] at heq'
          subst heq'
          refine ⟨?_, ?_, ih _ hf₁ _ hL, ih _ hf₂ _ hR⟩
          · intro ip hip
            have hpl := buildFuel_perm f ((sortedOf (a :: b :: t)).take (midOf (a :: b :: t)))
              hf₁
            rw [hL] at hpl
            exact hleft ip (hpl.subset hip)
          · intro ip hip
            have hpr := buildFuel_perm f ((sortedOf (a :: b :: t)).drop (midOf (a :: b :: t)))
              hf₂
            rw [hR] at hpr
            exact hright ip (hpr.subset hip)

theorem buildGo_inv : ∀ (items : List Item) (tr : KdNode), buildGo items = some tr → Inv tr :=
  fun items => buildFuel_inv items.length items (le_refl _)

/-! ## Correctness of the branch-and-bound search -/

theorem distLT_iff (d : ℚ) (best : Option (ℕ × ℚ)) :
    distLT d best = true ↔ (d : WithTop ℚ) < bnd best := by
  cases best with
  | none => simp [distLT, bnd]
  | some b => simp [distLT, bnd, WithTop.coe_lt_coe]

theorem updateBest_isSome (cand : ℕ × ℚ) (best : Option (ℕ × ℚ)) :
    (updateBest cand best).isSome := by
  unfold updateBest
  cases best with
  | none => simp [distLT]
  | some b => by_cases h : distLT cand.2 (some b) <;> simp [h]

theorem updateBest_bnd_le (cand : ℕ × ℚ) (best : Option (ℕ × ℚ)) :
    bnd (updateBest cand best) ≤ bnd best := by
  unfold updateBest
  by_cases h : distLT cand.2 best
  · simp only [if_pos h]
    exact le_of_lt ((distLT_iff _ _).1 h)
  · simp only [if_neg h]
    exact le_refl _

theorem updateBest_le_cand (cand : ℕ × ℚ) (best : Option (ℕ × ℚ)) :
    bnd (updateBest cand best) ≤ (cand.2 : WithTop ℚ) := by
  unfold updateBest
  by_cases h : distLT cand.2 best
  · simp [bnd, if_pos h]
  · simp only [if_neg h]
    exact le_of_not_lt fun hc => h ((distLT_iff _ _).2 hc)

theorem updateBest_shape (cand : ℕ × ℚ) (best : Option (ℕ × ℚ)) :
    updateBest cand best = best ∨ updateBest cand best = some cand := by
  unfold updateBest
  by_cases h : distLT cand.2 best <;> simp [h]

/-- A squared distance dominates its component along any one axis. -/
theorem coordDiff_sq_le_sqDist (q p : Point3) (ax : Fin 3) :
    (coord q ax - coord p ax) ^ 2 ≤ sqDist q p := by
  fin_cases ax <;>
    simp only [coord, sqDist] <;>
    nlinarith [sq_nonneg (q.x - p.x), sq_nonneg (q.y - p.y), sq_nonneg (q.z - p.z)]

/-- Pruning bound: when the query and a point lie on opposite sides of the
split plane, the squared plane distance bounds the squared point distance
from below. -/
theorem plane_sq_le {qa s pa : ℚ} (h : qa ≤ s ∧ s ≤ pa ∨ pa ≤ s ∧ s ≤ qa) :
    (qa - s) ^ 2 ≤ (qa - pa) ^ 2 := by
  rcases h with ⟨h1, h2⟩ | ⟨h1, h2⟩ <;>
    nlinarith [sq_nonneg (pa - s), sq_nonneg (s - pa),
      mul_nonneg (sub_nonneg.2 h1) (sub_nonneg.2 h2)]

/-- The search never worsens the current best bound. -/
theorem nnGo_bnd_le (q : Point3) : ∀ (t : KdNode) (best : Option (ℕ × ℚ)),
    bnd (nnGo q t best) ≤ bnd best := by
  intro t
  induction t with
  | leaf i p => intro best; simp only [nnGo]; exact updateBest_bnd_le _ _
  | node ax s l r ihl ihr =>
    intro best
    simp only [nnGo]
    by_cases hq : coord q ax < s
    · simp only [if_pos hq]
      by_cases hp : distLT ((coord q ax - s) ^ 2) (nnGo q l best)
      · simp only [if_pos hp]
        exact le_trans (ihr _) (ihl _)
      · simp only [if_neg hp]
        exact ihl _
    · simp only [if_neg hq]
      by_cases hp : distLT ((coord q ax - s) ^ 2) (nnGo q r best)
      · simp only [if_pos hp]
        exact le_trans (ihl _) (ihr _)
      · simp only [if_neg hp]
        exact ihr _

/-- The search always returns a best candidate (a tree holds ≥ 1 point). -/
theorem nnGo_isSome (q : Point3) : ∀ (t : KdNode) (best : Option (ℕ × ℚ)),
    (nnGo q t best).isSome := by
  intro t
  induction t with
  | leaf i p => intro best; simp only [nnGo]; exact updateBest_isSome _ _
  | node ax s l r ihl ihr =>
    intro best
    simp only [nnGo]
    by_cases hq : coord q ax < s
    · simp only [if_pos hq]
      by_cases hp : distLT ((coord q ax - s) ^ 2) (nnGo q l best)
      · simp only [if_pos hp]; exact ihr _
      · simp only [if_neg hp]; exact ihl _
    · simp only [if_neg hq]
      by_cases hp : distLT ((coord q ax - s) ^ 2) (nnGo q r best)
      · simp only [if_pos hp]; exact ihl _
      · simp only [if_neg hp]; exact ihr _

/-- The search result is the initial best or a genuine `(index, squared
distance)` pair of a point stored in the tree. -/
theorem nnGo_shape (q : Point3) : ∀ (t : KdNode) (best : Option (ℕ × ℚ)),
    nnGo q t best = best ∨
      ∃ ip ∈ elems t, nnGo q t best = some (ip.1, sqDist q ip.2) := by
  intro t
  induction t with
  | leaf i p =>
    intro best
    simp only [nnGo]
    rcases updateBest_shape (i, sqDist q p) best with h | h
    · exact .inl h
    · exact .inr ⟨(i, p), by simp [elems], h⟩
  | node ax s l r ihl ihr =>
    intro best
    simp only [nnGo]
    by_cases hq : coord q ax < s
    · simp only [if_pos hq]
      by_cases hp : distLT ((coord q ax - s) ^ 2) (nnGo q l best)
      · simp only [if_pos hp]
        rcases ihr (nnGo q l best) with h | ⟨ip, hip, h⟩
        · rw [h]
          rcases ihl best with h' | ⟨ip, hip, h'⟩
          · exact .inl h'
          · exact .inr ⟨ip, by simp [elems, hip], h'⟩
        · exact .inr ⟨ip, by simp [elems, hip], h⟩
      · simp only [if_neg hp]
        rcases ihl best with h | ⟨ip, hip, h⟩
        · exact .inl h
        · exact .inr ⟨ip, by simp [elems, hip], h⟩
    · simp only [if_neg hq]
      by_cases hp : distLT ((coord q ax - s) ^ 2) (nnGo q r best)
      · simp only [if_pos hp]
        rcases ihl (nnGo q r best) with h | ⟨ip, hip, h⟩
        · rw [h]
          rcases ihr best with h' | ⟨ip, hip, h'⟩
          · exact .inl h'
          · exact .inr ⟨ip, by simp [elems, hip], h'⟩
        · exact .inr ⟨ip, by simp [elems, hip], h⟩
      · simp only [if_neg hp]
        rcases ihr best with h | ⟨ip, hip, h⟩
        · exact .inl h
        · exact .inr ⟨ip, by simp [elems, hip], h⟩

/-- Pruning soundness: on an invariant-satisfying tree the returned bound is
≤ the squared distance to every stored point, pruned subtrees included. -/
theorem nnGo_min (q : Point3) : ∀ (t : KdNode), Inv t → ∀ (best : Option (ℕ × ℚ)),
    ∀ ip ∈ elems t, bnd (nnGo q t best) ≤ (sqDist q ip.2 : WithTop ℚ) := by
  intro t
  induction t with
  | leaf i p =>
    intro _ best ip hip
    simp only [elems, List.mem_singleton] at hip
    subst hip
    simpa only [nnGo] using updateBest_le_cand (i, sqDist q p) best
  | node ax s l r ihl ihr =>
    intro hInv best ip hip
    obtain ⟨hl, hr, invl, invr⟩ := hInv
    simp only [elems, List.mem_append] at hip
    simp only [nnGo]
    by_cases hq : coord q ax < s
    · simp only [if_pos hq]
      by_cases hp : distLT ((coord q ax - s) ^ 2) (nnGo q l best)
      · simp only [if_pos hp]
        rcases hip with h | h
        · exact le_trans (nnGo_bnd_le q r _) (ihl invl best ip h)
        · exact ihr invr _ ip h
      · simp only [if_neg hp]
        rcases hip with h | h
        · exact ihl invl best ip h
        · have h1 : bnd (nnGo q l best) ≤ (((coord q ax - s) ^ 2 : ℚ) : WithTop ℚ) :=
            le_of_not_lt fun hc => hp ((distLT_iff _ _).2 hc)
          have h2 : ((coord q ax - s) ^ 2 : ℚ) ≤ sqDist q ip.2 :=
            le_trans (plane_sq_le (.inl ⟨hq.le, hr ip h⟩)) (coordDiff_sq_le_sqDist q ip.2 ax)
          exact le_trans h1 (WithTop.coe_le_coe.2 h2)
    · simp only [if_neg hq]
      by_cases hp : distLT ((coord q ax - s) ^ 2) (nnGo q r best)
      · simp only [if_pos hp]
        rcases hip with h | h
        · exact ihl invl _ ip h
        · exact le_trans (nnGo_bnd_le q l _) (ihr invr best ip h)
      · simp only [if_neg hp]
        rcases hip with h | h
        · have h1 : bnd (nnGo q r best) ≤ (((coord q ax - s) ^ 2 : ℚ) : WithTop ℚ) :=
            le_of_not_lt fun hc => hp ((distLT_iff _ _).2 hc)
          have h2 : ((coord q ax - s) ^ 2 : ℚ) ≤ sqDist q ip.2 :=
            le_trans (plane_sq_le (.inr ⟨hl ip h, le_of_not_lt hq⟩))
              (coordDiff_sq_le_sqDist q ip.2 ax)
          exact le_trans h1 (WithTop.coe_le_coe.2 h2)
        · exact ihr invr best ip h

/-! ## The brute-force scan -/

theorem scan_bnd_le (q : Point3) : ∀ (l : List Item) (best : Option (ℕ × ℚ)),
    bnd (l.foldl (scanStep q) best) ≤ bnd best := by
  intro l
  induction l with
  | nil => intro best; exact le_refl _
  | cons x xs ih =>
    intro best
    simp only [List.foldl_cons]
    exact le_trans (ih _) (updateBest_bnd_le _ _)

theorem scan_isSome (q : Point3) : ∀ (l : List Item) (best : Option (ℕ × ℚ)),
    best.isSome → (l.foldl (scanStep q) best).isSome := by
  intro l
  induction l with
  | nil => intro best h; exact h
  | cons x xs ih =>
    intro best _
    simp only [List.foldl_cons]
    exact ih _ (updateBest_isSome _ _)

theorem scan_shape (q : Point3) : ∀ (l : List Item) (best : Option (ℕ × ℚ)),
    l.foldl (scanStep q) best = best ∨
      ∃ ip ∈ l, l.foldl (scanStep q) best = some (ip.1, sqDist q ip.2) := by
  intro l
  induction l with
  | nil => intro best; exact .inl rfl
  | cons x xs ih =>
    intro best
    simp only [List.foldl_cons]
    rcases ih (scanStep q best x) with h | ⟨ip, hip, h⟩
    · rw [h]
      rcases updateBest_shape (x.1, sqDist q x.2) best with h' | h'
      · exact .inl h'
      · exact .inr ⟨x, List.mem_cons_self _ _, h'⟩
    · exact .inr ⟨ip, List.mem_cons_of_mem _ hip, h⟩

theorem scan_min (q : Point3) : ∀ (l : List Item) (best : Option (ℕ × ℚ)),
    ∀ ip ∈ l, bnd (l.foldl (scanStep q) best) ≤ (sqDist q ip.2 : WithTop ℚ) := by
  intro l
  induction l with
  | nil => intro best ip hip; exact absurd hip (List.not_mem_nil _)
  | cons x xs ih =>
    intro best ip hip
    simp only [List.foldl_cons]
    rcases List.mem_cons.1 hip with rfl | h
    · exact le_trans (scan_bnd_le q xs _) (updateBest_le_cand _ _)
    · exact ih _ ip h

/-! ## Top-level exact nearest-neighbor correctness -/

theorem enum_ne_nil {pts : List Point3} (h : pts ≠ []) : pts.enum ≠ [] := by
  intro hc
  apply h
  have := congrArg List.length hc
  rw [List.enum_length] at this
  exact List.length_eq_zero.1 this

theorem build_isSome {pts : List Point3} (h : pts ≠ []) : ∃ t, build pts = some t := by
  cases hb : build pts with
  | none => exact absurd (buildGo_eq_none _ hb) (enum_ne_nil h)
  | some t => exact ⟨t, rfl⟩

/-- The library-level search returns a genuine nearest neighbor: an index
into the point store, its exact squared distance, and minimality over all
stored points. -/
theorem nnSearch_correct (pts : List Point3) (q : Point3) (h : pts ≠ []) :
    ∃ i d, nnSearch pts q = some (i, d) ∧
      ∃ hi : i < pts.length, d = sqDist q (pts.get ⟨i, hi⟩) ∧
        ∀ j (hj : j < pts.length), d ≤ sqDist q (pts.get ⟨j, hj⟩) := by
  obtain ⟨t, ht⟩ := build_isSome h
  have hres : nnSearch pts q = nnGo q t none := by
    rw [nnSearch, ht]
  have hsome := nnGo_isSome q t none
  rcases nnGo_shape q t none with hsh | ⟨ip, hip, hsh⟩
  · rw [hsh] at hsome
    simp at hsome
  · have hperm : List.Perm (elems t) pts.enum := by
      have := buildGo_perm pts.enum
      rw [show buildGo pts.enum = some t from ht] at this
      exact this
    have hmem : ip ∈ pts.enum := hperm.subset hip
    have hidx : pts[ip.1]? = some ip.2 := by
      rw [← List.mem_enum_iff_getElem?]
      exact hmem
    obtain ⟨hi, hget⟩ := List.getElem?_eq_some_iff.1 hidx
    refine ⟨ip.1, sqDist q ip.2, by rw [hres, hsh], hi, by rw [List.get_eq_getElem, hget], ?_⟩
    intro j hj
    have hjmem : (j, pts.get ⟨j, hj⟩) ∈ pts.enum := by
      rw [List.mk_mem_enum_iff_getElem?, List.getElem?_eq_some_iff]
      exact ⟨hj, by rw [List.get_eq_getElem]⟩
    have hjel : (j, pts.get ⟨j, hj⟩) ∈ elems t := hperm.symm.subset hjmem
    have := nnGo_min q t (buildGo_inv _ t ht) none (j, pts.get ⟨j, hj⟩) hjel
    rw [hsh] at this
    simp only [bnd] at this
    exact_mod_cast this

/-- The brute-force scan returns a genuine nearest neighbor as well. -/
theorem bruteNN_correct (pts : List Point3) (q : Point3) (h : pts ≠ []) :
    ∃ i d, bruteNN q pts = some (i, d) ∧
      ∃ hi : i < pts.length, d = sqDist q (pts.get ⟨i, hi⟩) ∧
        ∀ j (hj : j < pts.length), d ≤ sqDist q (pts.get ⟨j, hj⟩) := by
  have hsome : (bruteNN q pts).isSome := by
    rw [bruteNN]
    cases he : pts.enum with
    | nil => exact absurd he (enum_ne_nil h)
    | cons x xs =>
      simp only [List.foldl_cons]
      exact scan_isSome q xs _ (updateBest_isSome _ _)
  rcases scan_shape q pts.enum none with hsh | ⟨ip, hip, hsh⟩
  · rw [show pts.enum.foldl (scanStep q) none = bruteNN q pts from rfl] at hsh
    rw [hsh] at hsome
    simp at hsome
  · have hidx : pts[ip.1]? = some ip.2 := by
      rw [← List.mem_enum_iff_getElem?]
      exact hip
    obtain ⟨hi, hget⟩ := List.getElem?_eq_some_iff.1 hidx
    refine ⟨ip.1, sqDist q ip.2, hsh, hi, by rw [List.get_eq_getElem, hget], ?_⟩
    intro j hj
    have hjmem : (j, pts.get ⟨j, hj⟩) ∈ pts.enum := by
      rw [List.mk_mem_enum_iff_getElem?, List.getElem?_eq_some_iff]
      exact ⟨hj, by rw [List.get_eq_getElem]⟩
    have := scan_min q pts.enum none (j, pts.get ⟨j, hj⟩) hjmem
    rw [hsh] at this
    simp only [bnd] at this
    exact_mod_cast this

/-! ## Properties of the k-nearest-neighbor search -/

/-- All candidates for a query, as produced before sorting. -/
def allCands (pts : List Point3) (q : Point3) : List (ℕ × ℚ) :=
  pts.enum.map fun ip => (ip.1, sqDist q ip.2)

theorem knnAll_sorted (pts : List Point3) (q : Point3) :
    (knnAll pts q).Sorted distLE :=
  List.sorted_insertionSort _ _

theorem knnAll_perm (pts : List Point3) (q : Point3) :
    List.Perm (knnAll pts q) (allCands pts q) :=
  List.perm_insertionSort _ _

theorem length_knnAll (pts : List Point3) (q : Point3) :
    (knnAll pts q).length = pts.length := by
  rw [(knnAll_perm pts q).length_eq, allCands, List.length_map, List.enum_length]

theorem length_knnLib (pts : List Point3) (q : Point3) (k : ℕ) :
    (knnLib pts q k).length = min k pts.length := by
  rw [knnLib, List.length_take, length_knnAll]

theorem knnLib_sorted (pts : List Point3) (q : Point3) (k : ℕ) :
    (knnLib pts q k).Sorted distLE :=
  (knnAll_sorted pts q).take

/-- Every candidate carries a genuine point-store index and its exact
squared distance. -/
theorem mem_allCands {pts : List Point3} {q : Point3} {c : ℕ × ℚ}
    (h : c ∈ allCands pts q) :
    ∃ hi : c.1 < pts.length, c.2 = sqDist q (pts.get ⟨c.1, hi⟩) := by
  rw [allCands, List.mem_map] at h
  obtain ⟨ip, hip, rfl⟩ := h
  have hidx : pts[ip.1]? = some ip.2 := by
    rw [← List.mem_enum_iff_getElem?]
    exact hip
  obtain ⟨hi, hget⟩ := List.getElem?_eq_some_iff.1 hidx
  exact ⟨hi, by rw [List.get_eq_getElem, hget]⟩

theorem mem_knnLib_mem_allCands {pts : List Point3} {q : Point3} {k : ℕ} {c : ℕ × ℚ}
    (h : c ∈ knnLib pts q k) : c ∈ allCands pts q :=
  (knnAll_perm pts q).subset (List.mem_of_mem_take h)

/-- The filled slots are exactly a minimal-distance selection: together with
the rest of the candidates they permute the full candidate list, and every
filled distance is ≤ every left-out distance. -/
theorem knnLib_selects (pts : List Point3) (q : Point3) (k : ℕ) :
    ∃ rest, List.Perm (knnLib pts q k ++ rest) (allCands pts q) ∧
      ∀ a ∈ knnLib pts q k, ∀ b ∈ rest, a.2 ≤ b.2 := by
  refine ⟨(knnAll pts q).drop k, ?_, ?_⟩
  · rw [knnLib, List.take_append_drop]
    exact knnAll_perm pts q
  · intro a ha b hb
    exact (knnAll_sorted pts q).rel_of_mem_take_of_mem_drop ha hb

/-! ## The parallel builder computes the sequential tree -/

/-- Task-dispatched construction and sequential construction make the same
split decisions on every sub-range, hence build identical trees. -/
theorem buildOMPGo_eq : ∀ (budget : ℕ) (items : List Item),
    buildOMPGo budget items = buildGo items := by
  intro budget
  induction budget using Nat.strong_induction_on with
  | _ budget ih =>
    intro items
    rw [buildOMPGo.eq_def]
    by_cases h : budget ≤ 1
    · rw [if_pos h]
    · rw [if_neg h]
      match items with
      | [] => rfl
      | [ip] => rfl
      | a :: b :: t =>
        show mkNode (chooseAxis (a :: b :: t)) (splitOf (a :: b :: t))
            (buildOMPGo (budget / 2) (List.take (midOf (a :: b :: t)) (sortedOf (a :: b :: t))))
            (buildOMPGo (budget / 2) (List.drop (midOf (a :: b :: t)) (sortedOf (a :: b :: t)))) =
          buildGo (a :: b :: t)
        rw [ih (budget / 2) (by omega) (List.take (midOf (a :: b :: t)) (sortedOf (a :: b :: t))),
          ih (budget / 2) (by omega) (List.drop (midOf (a :: b :: t)) (sortedOf (a :: b :: t))),
          buildGo_cons]

/-! ## Binding-layer helper lemmas -/

/-- A batch cell holds exactly the index/distance the single-query binding
returns for the same point. -/
theorem nnCell_eq (pts : List Point3) (p : Point3) :
    nnCell pts p =
      ((nearest_neighbor_search pts p).index, (nearest_neighbor_search pts p).sqdist) := by
  cases hs : nnSearch pts p with
  | none => simp [nnCell, nearest_neighbor_search, hs]
  | some v =>
    cases v with
    | mk i d => simp [nnCell, nearest_neighbor_search, hs]

/-- The query point built from a row reads only the row's first three
entries. -/
theorem rowPoint_take3 (row : List ℚ) : rowPoint (row.take 3) = rowPoint row := by
  rcases row with _ | ⟨x0, _ | ⟨x1, _ | ⟨x2, rest⟩⟩⟩ <;> rfl

/-- Any per-row batch computation that reads only the first three columns
produces equal result lists on matrices agreeing there. -/
theorem map_eq_of_take3 {γ : Type} (f : List ℚ → γ) (hf : ∀ row, f (row.take 3) = f row)
    {rows1 rows2 : List (List ℚ)}
    (h : rows1.map (List.take 3) = rows2.map (List.take 3)) :
    rows1.map f = rows2.map f := by
  have e : ∀ rows : List (List ℚ), rows.map f = (rows.map (List.take 3)).map f := by
    intro rows
    rw [List.map_map]
    exact List.map_congr_left fun row _ => (hf row).symm
  rw [e rows1, e rows2, h]

/-- Both output vectors of `knn_search` have length exactly `k`. -/
theorem length_knn_search (pts : List Point3) (q : Point3) (k : ℕ) :
    (knn_search pts q k).1.length = k ∧ (knn_search pts q k).2.length = k := by
  have h := length_knnLib pts q k
  constructor <;>
    simp only [knn_search, List.length_append, List.length_map, List.length_replicate, h] <;>
    omega

/-- The full distance vector `knn_search` returns is non-decreasing,
sentinel padding included, whenever the true squared distances fit below
`std::numeric_limits<double>::max()`. -/
theorem knn_search_dists_sorted (pts : List Point3) (q : Point3) (k : ℕ)
    (hbound : ∀ p ∈ pts, sqDist q p ≤ maxDoubleQ) :
    (knn_search pts q k).2.Sorted Dbl.le := by
  simp only [knn_search]
  show List.Pairwise Dbl.le _
  rw [List.pairwise_append]
  refine ⟨?_, ?_, ?_⟩
  · exact (knnLib_sorted pts q k).map _ (fun a b h => h)
  · exact List.pairwise_replicate.2 (Or.inr (le_refl maxDoubleQ))
  · intro a ha b hb
    rw [List.eq_of_mem_replicate hb]
    rw [List.mem_map] at ha
    obtain ⟨c, hc, rfl⟩ := ha
    obtain ⟨hi, hd⟩ := mem_allCands (mem_knnLib_mem_allCands hc)
    show c.2 ≤ maxDoubleQ
    rw [hd]
    exact hbound _ (List.get_mem pts c.1 hi)

/-! ## The claims -/

/-- C1: for every built tree and query point, `nearest_neighbor_search`
returns the index of a point whose squared Euclidean distance to the query
is minimal among all stored points, together with that squared distance, and
a brute-force linear scan over the point store yields the same minimal
squared distance. -/
theorem claim_C1 (pts : List Point3) (q : Point3) (h : pts ≠ []) :
    ∃ i d, nearest_neighbor_search pts q = ⟨1, i, .val d⟩ ∧
      ∃ hi : i < pts.length, d = sqDist q (pts.get ⟨i, hi⟩) ∧
        (∀ j (hj : j < pts.length), d ≤ sqDist q (pts.get ⟨j, hj⟩)) ∧
        ∃ j, bruteNN q pts = some (j, d) := by
  obtain ⟨i, d, hs, hi, hd, hmin⟩ := nnSearch_correct pts q h
  obtain ⟨i', d', hs', hi', hd', hmin'⟩ := bruteNN_correct pts q h
  have hdd : d = d' := by
    apply le_antisymm
    · rw [hd']; exact hmin i' hi'
    · rw [hd]; exact hmin' i hi
  refine ⟨i, d, ?_, hi, hd, hmin, i', by rw [hs', hdd]⟩
  rw [nearest_neighbor_search, hs]

/-- Closed witness for C1 at the spec's scenario inputs. -/
theorem claim_C1_witness :
    ∃ i d, nearest_neighbor_search scenarioPts scenarioQ = ⟨1, i, .val d⟩ ∧
      ∃ hi : i < scenarioPts.length, d = sqDist scenarioQ (scenarioPts.get ⟨i, hi⟩) ∧
        (∀ j (hj : j < scenarioPts.length),
          d ≤ sqDist scenarioQ (scenarioPts.get ⟨j, hj⟩)) ∧
        ∃ j, bruteNN scenarioQ scenarioPts = some (j, d) :=
  claim_C1 scenarioPts scenarioQ (by simp [scenarioPts])

/-- C3 (amended): `nearest_neighbor_search` on a tree built from an empty
point set returns `found = 0`, the out-of-range sentinel index
`(size_t)-1 = 2^64 - 1`, and a squared distance equal to
`std::numeric_limits<double>::max()` (the largest finite double, not
`+infinity`), for every query; the outcome is reported through the returned
tuple, whose type raises no error. -/
theorem claim_C3 (q : Point3) :
    nearest_neighbor_search [] q = ⟨0, SENTINEL_IDX, maxDouble⟩ := rfl

/-- Closed witness for C3 at a concrete query. -/
theorem claim_C3_witness :
    nearest_neighbor_search [] ⟨5, -3, 7⟩ = ⟨0, SENTINEL_IDX, maxDouble⟩ :=
  claim_C3 ⟨5, -3, 7⟩

/-- Counterexample to C3 as stated: on the empty point set the returned
squared distance is `std::numeric_limits<double>::max()`, a finite value,
and not `+infinity` as the claim asserts. -/
theorem claim_C3_cex :
    (nearest_neighbor_search [] ⟨0, 0, 0⟩).sqdist = maxDouble ∧
      maxDouble ≠ Dbl.posInf :=
  ⟨rfl, by simp [maxDouble]⟩

unseal Rat.add Rat.mul Rat.sub Rat.inv in
/-- C7: on the scenario point set `{(0,0,0), (10,0,0), (0,10,0)}` with query
`(1,0,0)`, the nearest neighbor is `(0,0,0)` (index 0) at squared distance 1,
and 2-NN returns indices `[0, 1]` with squared distances `[1, 81]`. -/
theorem claim_C7 :
    nearest_neighbor_search scenarioPts scenarioQ = ⟨1, 0, .val 1⟩ ∧
      knn_search scenarioPts scenarioQ 2 = ([0, 1], [.val 1, .val 81]) := by
  constructor <;> decide

/-- C8: construction with any thread count builds the identical tree built
with one thread — the tree queries are answered against. -/
theorem claim_C8 (pts : List Point3) (T : ℕ) :
    KdTree_init pts T = KdTree_init pts 1 ∧ KdTree_init pts T = build pts := by
  constructor <;> simp only [KdTree_init, buildOMPGo_eq, build]

/-- C2: a query matrix whose column count is neither 3 nor 4 makes both batch
searches return the Invalid-Input error and nothing else (no partial
results); a column count of exactly 3 or 4 raises no such error. -/
theorem claim_C2 (pts : List Point3) (m : DMat) (k numThreads : ℕ) :
    (m.cols ≠ 3 ∧ m.cols ≠ 4 →
      batch_nearest_neighbor_search pts m numThreads =
        .error "pts must have shape (n, 3) or (n, 4)" ∧
      batch_knn_search pts m k numThreads =
        .error "pts must have shape (n, 3) or (n, 4)") ∧
    ((m.cols = 3 ∨ m.cols = 4) →
      (∃ out, batch_nearest_neighbor_search pts m numThreads = .ok out) ∧
      (∃ out, batch_knn_search pts m k numThreads = .ok out)) := by
  constructor
  · intro h
    constructor <;> simp [batch_nearest_neighbor_search, batch_knn_search, h]
  · intro h
    have h' : ¬(m.cols ≠ 3 ∧ m.cols ≠ 4) := by tauto
    constructor
    · exact ⟨_, by rw [batch_nearest_neighbor_search, if_neg h']⟩
    · exact ⟨_, by rw [batch_knn_search, if_neg h']⟩

/-- Closed witness for C2: a 2-column batch is rejected by both searches,
and a 3-column batch is accepted by both. -/
theorem claim_C2_witness :
    (batch_nearest_neighbor_search scenarioPts ⟨[[1, 2]], 2⟩ 1 =
        .error "pts must have shape (n, 3) or (n, 4)" ∧
      batch_knn_search scenarioPts ⟨[[1, 2]], 2⟩ 1 1 =
        .error "pts must have shape (n, 3) or (n, 4)") ∧
    ((∃ out, batch_nearest_neighbor_search scenarioPts ⟨[[1, 0, 0]], 3⟩ 1 = .ok out) ∧
      (∃ out, batch_knn_search scenarioPts ⟨[[1, 0, 0]], 3⟩ 1 1 = .ok out)) :=
  ⟨(claim_C2 scenarioPts ⟨[[1, 2]], 2⟩ 1 1).1 (by simp),
   (claim_C2 scenarioPts ⟨[[1, 0, 0]], 3⟩ 1 1).2 (by simp)⟩

/-- C4 (amended): when a tree holds `N < k` points, `knn_search` returns
index and distance vectors of length exactly `k`; the first `N` slots hold
the real neighbors (indices in `[0, N)`), and every remaining slot holds the
sentinel index `(size_t)-1` and the sentinel distance
`std::numeric_limits<double>::max()` (not `+infinity`); each per-query
result of `batch_knn_search` is exactly the `knn_search` output for that
row. -/
theorem claim_C4 (pts : List Point3) (q : Point3) (k : ℕ) (hNk : pts.length < k) :
    (knn_search pts q k).1.length = k ∧
    (knn_search pts q k).2.length = k ∧
    (knn_search pts q k).1.take pts.length = (knnLib pts q k).map Prod.fst ∧
    (∀ i ∈ (knn_search pts q k).1.take pts.length, i < pts.length) ∧
    (knn_search pts q k).1.drop pts.length = List.replicate (k - pts.length) SENTINEL_IDX ∧
    (knn_search pts q k).2.drop pts.length = List.replicate (k - pts.length) maxDouble ∧
    ∀ (m : DMat) (T : ℕ), ¬(m.cols ≠ 3 ∧ m.cols ≠ 4) →
      batch_knn_search pts m k T =
        .ok (m.rows.map fun row => (knn_search pts (rowPoint row) k).1,
             m.rows.map fun row => (knn_search pts (rowPoint row) k).2) := by
  have hlen : (knnLib pts q k).length = pts.length := by
    rw [length_knnLib]
    omega
  have hmaplen : ((knnLib pts q k).map Prod.fst).length = pts.length := by
    rw [List.length_map, hlen]
  have hmaplen' : ((knnLib pts q k).map fun r => Dbl.val r.2).length = pts.length := by
    rw [List.length_map, hlen]
  refine ⟨?_, ?_, ?_, ?_, ?_, ?_, ?_⟩
  · simp only [knn_search, List.length_append, List.length_map, List.length_replicate, hlen]
    omega
  · simp only [knn_search, List.length_append, List.length_map, List.length_replicate, hlen]
    omega
  · simp only [knn_search]
    exact List.take_left' hmaplen
  · intro i hi
    simp only [knn_search] at hi
    rw [List.take_left' hmaplen] at hi
    rw [List.mem_map] at hi
    obtain ⟨c, hc, rfl⟩ := hi
    obtain ⟨hlt, _⟩ := mem_allCands (mem_knnLib_mem_allCands hc)
    exact hlt
  · simp only [knn_search]
    rw [List.drop_left' hmaplen, hlen]
  · simp only [knn_search]
    rw [List.drop_left' hmaplen', hlen]
  · intro m T h
    rw [batch_knn_search, if_neg h]
    simp only [List.map_map]
    rfl

/-- Closed witness for amended C4 at one stored point and `k = 2`. -/
theorem claim_C4_witness :
    (knn_search [⟨0, 0, 0⟩] ⟨0, 0, 0⟩ 2).1.length = 2 ∧
    (knn_search [⟨0, 0, 0⟩] ⟨0, 0, 0⟩ 2).2.length = 2 ∧
    (knn_search [⟨0, 0, 0⟩] ⟨0, 0, 0⟩ 2).1.take ([⟨0, 0, 0⟩] : List Point3).length =
      (knnLib [⟨0, 0, 0⟩] ⟨0, 0, 0⟩ 2).map Prod.fst ∧
    (∀ i ∈ (knn_search [⟨0, 0, 0⟩] ⟨0, 0, 0⟩ 2).1.take ([⟨0, 0, 0⟩] : List Point3).length,
      i < ([⟨0, 0, 0⟩] : List Point3).length) ∧
    (knn_search [⟨0, 0, 0⟩] ⟨0, 0, 0⟩ 2).1.drop ([⟨0, 0, 0⟩] : List Point3).length =
      List.replicate (2 - ([⟨0, 0, 0⟩] : List Point3).length) SENTINEL_IDX ∧
    (knn_search [⟨0, 0, 0⟩] ⟨0, 0, 0⟩ 2).2.drop ([⟨0, 0, 0⟩] : List Point3).length =
      List.replicate (2 - ([⟨0, 0, 0⟩] : List Point3).length) maxDouble ∧
    ∀ (m : DMat) (T : ℕ), ¬(m.cols ≠ 3 ∧ m.cols ≠ 4) →
      batch_knn_search [⟨0, 0, 0⟩] m 2 T =
        .ok (m.rows.map fun row => (knn_search [⟨0, 0, 0⟩] (rowPoint row) 2).1,
             m.rows.map fun row => (knn_search [⟨0, 0, 0⟩] (rowPoint row) 2).2) :=
  claim_C4 [⟨0, 0, 0⟩] ⟨0, 0, 0⟩ 2 (by simp)

unseal Rat.add Rat.mul Rat.sub Rat.inv in
/-- Counterexample to C4 as stated: with one stored point and `k = 2`, the
padding slot of the distance vector holds
`std::numeric_limits<double>::max()`, a finite value, and not `+infinity` as
the claim asserts. -/
theorem claim_C4_cex :
    (knn_search [⟨0, 0, 0⟩] ⟨0, 0, 0⟩ 2).2 = [Dbl.val 0, maxDouble] ∧
      maxDouble ≠ Dbl.posInf := by
  constructor
  · decide
  · simp [maxDouble]

/-- C5: every row of a batch nearest-neighbor result (index and squared
distance) equals the single-query `nearest_neighbor_search` on that row's
query point, for every thread count. -/
theorem claim_C5 (pts : List Point3) (m : DMat) (T : ℕ)
    (hc : m.cols = 3 ∨ m.cols = 4) :
    ∃ idxs dists, batch_nearest_neighbor_search pts m T = .ok (idxs, dists) ∧
      idxs.length = m.rows.length ∧ dists.length = m.rows.length ∧
      ∀ i, i < m.rows.length →
        idxs.getD i 0 =
          (nearest_neighbor_search pts (rowPoint (m.rows.getD i []))).index ∧
        dists.getD i (Dbl.val 0) =
          (nearest_neighbor_search pts (rowPoint (m.rows.getD i []))).sqdist := by
  have h' : ¬(m.cols ≠ 3 ∧ m.cols ≠ 4) := by tauto
  refine ⟨_, _, by rw [batch_nearest_neighbor_search, if_neg h'], by simp, by simp, ?_⟩
  intro i hi
  have hrow : m.rows[i]? = some (m.rows.getD i []) := by
    rw [List.getElem?_eq_getElem hi, List.getD_eq_getElem?_getD,
      List.getElem?_eq_getElem hi]
    rfl
  constructor
  · rw [List.getD_eq_getElem?_getD, List.getElem?_map, List.getElem?_map, hrow]
    simp [nnCell_eq]
  · rw [List.getD_eq_getElem?_getD, List.getElem?_map, List.getElem?_map, hrow]
    simp [nnCell_eq]

/-- Closed witness for C5 on the scenario points and a 2-row batch. -/
theorem claim_C5_witness :
    ∃ idxs dists,
      batch_nearest_neighbor_search scenarioPts ⟨[[1, 0, 0], [0, 9, 0]], 3⟩ 4 =
        .ok (idxs, dists) ∧
      idxs.length = ([[1, 0, 0], [0, 9, 0]] : List (List ℚ)).length ∧
      dists.length = ([[1, 0, 0], [0, 9, 0]] : List (List ℚ)).length ∧
      ∀ i, i < ([[1, 0, 0], [0, 9, 0]] : List (List ℚ)).length →
        idxs.getD i 0 =
          (nearest_neighbor_search scenarioPts
            (rowPoint (([[1, 0, 0], [0, 9, 0]] : List (List ℚ)).getD i []))).index ∧
        dists.getD i (Dbl.val 0) =
          (nearest_neighbor_search scenarioPts
            (rowPoint (([[1, 0, 0], [0, 9, 0]] : List (List ℚ)).getD i []))).sqdist :=
  claim_C5 scenarioPts ⟨[[1, 0, 0], [0, 9, 0]], 3⟩ 4 (by simp)

/-- C6: for every query and `k ≥ 1`, the index and distance vectors of
`knn_search` have equal length, the returned distances are non-decreasing
(nearest first), the filled slots number `min k N` and carry genuine indices
with their exact squared distances, and together with the left-out
candidates they permute the full candidate list while every filled distance
is ≤ every left-out distance — the filled slots are exactly a set of `k`
(or `N`) closest points. -/
theorem claim_C6 (pts : List Point3) (q : Point3) (k : ℕ) (hk : 1 ≤ k)
    (hbound : ∀ p ∈ pts, sqDist q p ≤ maxDoubleQ) :
    (knn_search pts q k).1.length = (knn_search pts q k).2.length ∧
    (knn_search pts q k).2.Sorted Dbl.le ∧
    (knn_search pts q k).2.take (min k pts.length) =
      (knnLib pts q k).map (fun c => Dbl.val c.2) ∧
    (knnLib pts q k).length = min k pts.length ∧
    (∀ c ∈ knnLib pts q k,
      ∃ hi : c.1 < pts.length, c.2 = sqDist q (pts.get ⟨c.1, hi⟩)) ∧
    ∃ rest, List.Perm (knnLib pts q k ++ rest) (allCands pts q) ∧
      ∀ a ∈ knnLib pts q k, ∀ b ∈ rest, a.2 ≤ b.2 := by
  obtain ⟨hl1, hl2⟩ := length_knn_search pts q k
  refine ⟨by rw [hl1, hl2], knn_search_dists_sorted pts q k hbound, ?_,
    length_knnLib pts q k, ?_, knnLib_selects pts q k⟩
  · simp only [knn_search]
    exact List.take_left' (by rw [List.length_map, length_knnLib])
  · intro c hc
    exact mem_allCands (mem_knnLib_mem_allCands hc)

/-- Closed witness for C6 at one stored point and `k = 1`. -/
theorem claim_C6_witness :
    (knn_search [⟨0, 0, 0⟩] ⟨1, 0, 0⟩ 1).1.length =
      (knn_search [⟨0, 0, 0⟩] ⟨1, 0, 0⟩ 1).2.length ∧
    (knn_search [⟨0, 0, 0⟩] ⟨1, 0, 0⟩ 1).2.Sorted Dbl.le ∧
    (knn_search [⟨0, 0, 0⟩] ⟨1, 0, 0⟩ 1).2.take
        (min 1 ([⟨0, 0, 0⟩] : List Point3).length) =
      (knnLib [⟨0, 0, 0⟩] ⟨1, 0, 0⟩ 1).map (fun c => Dbl.val c.2) ∧
    (knnLib [⟨0, 0, 0⟩] ⟨1, 0, 0⟩ 1).length = min 1 ([⟨0, 0, 0⟩] : List Point3).length ∧
    (∀ c ∈ knnLib [⟨0, 0, 0⟩] ⟨1, 0, 0⟩ 1,
      ∃ hi : c.1 < ([⟨0, 0, 0⟩] : List Point3).length,
        c.2 = sqDist ⟨1, 0, 0⟩ (([⟨0, 0, 0⟩] : List Point3).get ⟨c.1, hi⟩)) ∧
    ∃ rest, List.Perm (knnLib [⟨0, 0, 0⟩] ⟨1, 0, 0⟩ 1 ++ rest)
        (allCands [⟨0, 0, 0⟩] ⟨1, 0, 0⟩) ∧
      ∀ a ∈ knnLib [⟨0, 0, 0⟩] ⟨1, 0, 0⟩ 1, ∀ b ∈ rest, a.2 ≤ b.2 :=
  claim_C6 [⟨0, 0, 0⟩] ⟨1, 0, 0⟩ 1 (by decide)
    (by
      intro p hp
      rw [List.mem_singleton] at hp
      subst hp
      norm_num [sqDist, maxDoubleQ])

/-- C9: 4-column query matrices agreeing on columns 0, 1, 2 give identical
batch results for any thread counts — the fourth column is never read and
the homogeneous coordinate is hardcoded to `1.0`. -/
theorem claim_C9 (pts : List Point3) (m₁ m₂ : DMat) (k T₁ T₂ : ℕ)
    (h₁ : m₁.cols = 4) (h₂ : m₂.cols = 4)
    (hrows : m₁.rows.map (List.take 3) = m₂.rows.map (List.take 3)) :
    batch_nearest_neighbor_search pts m₁ T₁ = batch_nearest_neighbor_search pts m₂ T₂ ∧
    batch_knn_search pts m₁ k T₁ = batch_knn_search pts m₂ k T₂ := by
  have hn₁ : ¬(m₁.cols ≠ 3 ∧ m₁.cols ≠ 4) := by simp [h₁]
  have hn₂ : ¬(m₂.cols ≠ 3 ∧ m₂.cols ≠ 4) := by simp [h₂]
  have e₁ := map_eq_of_take3 (fun row => nnCell pts (rowPoint row))
    (fun row => by simp only [rowPoint_take3]) hrows
  have e₂ := map_eq_of_take3 (fun row => knn_search pts (rowPoint row) k)
    (fun row => by simp only [rowPoint_take3]) hrows
  constructor
  · rw [batch_nearest_neighbor_search, batch_nearest_neighbor_search, if_neg hn₁, if_neg hn₂]
    simp only [e₁]
  · rw [batch_knn_search, batch_knn_search, if_neg hn₁, if_neg hn₂]
    simp only [e₂]

/-- Closed witness for C9: two single-row matrices differing only in the
fourth column give identical batch outputs. -/
theorem claim_C9_witness :
    batch_nearest_neighbor_search scenarioPts ⟨[[1, 0, 0, 7]], 4⟩ 1 =
      batch_nearest_neighbor_search scenarioPts ⟨[[1, 0, 0, 42]], 4⟩ 2 ∧
    batch_knn_search scenarioPts ⟨[[1, 0, 0, 7]], 4⟩ 2 1 =
      batch_knn_search scenarioPts ⟨[[1, 0, 0, 42]], 4⟩ 2 2 :=
  claim_C9 scenarioPts ⟨[[1, 0, 0, 7]], 4⟩ ⟨[[1, 0, 0, 42]], 4⟩ 2 1 2 rfl rfl (by rfl)

/-- C10: for every valid query matrix (3 or 4 columns, any row count
including zero) the batch searches raise no error; `batch_nearest` returns
two sequences of length exactly M, and `batch_knn` returns M index sequences
and M distance sequences, each inner sequence of length exactly `k`. -/
theorem claim_C10 (pts : List Point3) (m : DMat) (k T : ℕ)
    (hc : m.cols = 3 ∨ m.cols = 4) (hk : 1 ≤ k) :
    (∃ idxs dists, batch_nearest_neighbor_search pts m T = .ok (idxs, dists) ∧
      idxs.length = m.rows.length ∧ dists.length = m.rows.length) ∧
    ∃ iss dss, batch_knn_search pts m k T = .ok (iss, dss) ∧
      iss.length = m.rows.length ∧ dss.length = m.rows.length ∧
      (∀ l ∈ iss, l.length = k) ∧ ∀ l ∈ dss, l.length = k := by
  have h' : ¬(m.cols ≠ 3 ∧ m.cols ≠ 4) := by tauto
  constructor
  · exact ⟨_, _, by rw [batch_nearest_neighbor_search, if_neg h'], by simp, by simp⟩
  · refine ⟨_, _, by rw [batch_knn_search, if_neg h'], by simp, by simp, ?_, ?_⟩
    · intro l hl
      simp only [List.map_map, List.mem_map, Function.comp] at hl
      obtain ⟨row, _, rfl⟩ := hl
      exact (length_knn_search pts (rowPoint row) k).1
    · intro l hl
      simp only [List.map_map, List.mem_map, Function.comp] at hl
      obtain ⟨row, _, rfl⟩ := hl
      exact (length_knn_search pts (rowPoint row) k).2

/-- Closed witness for C10 on an empty 3-column batch: both searches accept
it and return empty sequences. -/
theorem claim_C10_witness :
    (∃ idxs dists, batch_nearest_neighbor_search scenarioPts ⟨[], 3⟩ 1 = .ok (idxs, dists) ∧
      idxs.length = ([] : List (List ℚ)).length ∧
      dists.length = ([] : List (List ℚ)).length) ∧
    ∃ iss dss, batch_knn_search scenarioPts ⟨[], 3⟩ 1 1 = .ok (iss, dss) ∧
      iss.length = ([] : List (List ℚ)).length ∧
      dss.length = ([] : List (List ℚ)).length ∧
      (∀ l ∈ iss, l.length = 1) ∧ ∀ l ∈ dss, l.length = 1 :=
  claim_C10 scenarioPts ⟨[], 3⟩ 1 1 (by simp) (by decide)

end SmallGicp
